import Mathlib

/-!
Verification development for the skills-panel data pipeline of the
`industry-themed-agent-panels` repository.

The embedded code comes from `src/panels/skills/hooks/useSkillsData.ts`
(the richer variant with source/priority classification) and from the
filtering logic of `src/panels/SkillsListPanel.tsx`.  JavaScript string
operations are modelled over `List Char`, with `String` at the record
boundaries.
-/

/-- Whitespace predicate used by the JavaScript regular-expression class
`\s` and by `String.prototype.trim`, restricted to the ASCII range that
the embedded documents use. -/
def wsp (c : Char) : Bool :=
  c == ' ' || c == '\t' || c == '\n' || c == '\r' || c == '\x0b' || c == '\x0c'

/-- JavaScript `String.prototype.trim` on a character list: drop
whitespace from both ends. -/
def jsTrimList (cs : List Char) : List Char :=
  ((cs.dropWhile wsp).reverse.dropWhile wsp).reverse

/-- JavaScript `String.prototype.trim`. -/
def jsTrim (s : String) : String :=
  String.mk (jsTrimList s.toList)

/-- JavaScript `String.prototype.includes` on character lists: `sub`
occurs contiguously inside the second argument. -/
def jsIncludesList (sub : List Char) : List Char → Bool
  | [] => sub.isEmpty
  | c :: cs => sub.isPrefixOf (c :: cs) || jsIncludesList sub cs

/-- JavaScript `s.includes(sub)`. -/
def jsIncludes (s sub : String) : Bool :=
  jsIncludesList sub.toList s.toList

/-- JavaScript `s.startsWith(pre)`. -/
def jsStartsWith (s pre : String) : Bool :=
  pre.toList.isPrefixOf s.toList

/-- JavaScript `String.prototype.toLowerCase` (ASCII fragment). -/
def jsToLower (s : String) : String :=
  String.mk (s.toList.map Char.toLower)

/-- JavaScript `String.prototype.split` with a one-character separator. -/
def splitChar (sep : Char) : List Char → List (List Char)
  | [] => [[]]
  | c :: cs =>
    let r := splitChar sep cs
    if c == sep then [] :: r
    else
      match r with
      | [] => [[c]]
      | h :: t => (c :: h) :: t

/-- JavaScript `s.replace(/a/g, b)` for one-character patterns and
replacements. -/
def replaceChar (a b : Char) (cs : List Char) : List Char :=
  cs.map fun c => if c == a then b else c

/-- The five provenance categories of `SkillSource` in
`useSkillsData.ts`. -/
inductive SkillSource where
  | projectUniversal
  | globalUniversal
  | projectClaude
  | globalClaude
  | projectOther
deriving DecidableEq, Repr

/-- The `Skill` record of `useSkillsData.ts` (richer variant). Optional
fields that the local parser always populates are modelled as present. -/
structure Skill where
  id : String
  name : String
  path : String
  description : String
  content : String
  capabilities : List String
  skillFolderPath : String
  hasScripts : Bool
  hasReferences : Bool
  hasAssets : Bool
  scriptFiles : List String
  referenceFiles : List String
  assetFiles : List String
  source : SkillSource
  priority : Nat
deriving DecidableEq, Repr

/-- One entry of the file-tree snapshot's `allFiles` array. -/
structure FileEntry where
  name : String
  relativePath : String
deriving DecidableEq, Repr

/-- The file-tree snapshot: a flat list of file entries. -/
structure FileTree where
  allFiles : List FileEntry
deriving DecidableEq, Repr

/-- Result record of `analyzeSkillStructure`. -/
structure SkillStructure where
  skillFolderPath : String
  hasScripts : Bool
  hasReferences : Bool
  hasAssets : Bool
  scriptFiles : List String
  referenceFiles : List String
  assetFiles : List String
deriving DecidableEq, Repr

/-- Embeds `determineSkillSource`: classify a path by substring
containment, first `.agent/skills/`, then `.claude/skills/`, else the
catch-all category. -/
def determineSkillSource (path : String) : SkillSource × Nat :=
  if jsIncludes path ".agent/skills/" then (.projectUniversal, 1)
  else if jsIncludes path ".claude/skills/" then (.projectClaude, 3)
  else (.projectOther, 5)

/-- Embeds `findSkillFiles`: the relative paths of all entries named
`SKILL.md`. -/
def findSkillFiles (fileTree : FileTree) : List String :=
  (fileTree.allFiles.filter fun f => f.name == "SKILL.md").map
    fun f => f.relativePath

/-- Embeds `skillPath.substring(0, skillPath.lastIndexOf('/'))`: the
characters before the last `/`, and `[]` when there is no `/` (JavaScript
clamps the `-1` end index to `0`). -/
def skillDirList (cs : List Char) : List Char :=
  match cs.reverse.dropWhile (fun c => !(c == '/')) with
  | [] => []
  | _ :: rest => rest.reverse

/-- Embeds `analyzeSkillStructure`: locate the skill directory and
collect the file names under its `scripts/`, `references/` and `assets/`
subdirectories. -/
def analyzeSkillStructure (fileTree : FileTree) (skillPath : String) :
    SkillStructure :=
  let skillDir := String.mk (skillDirList skillPath.toList)
  let skillFiles := fileTree.allFiles.filter fun f =>
    jsStartsWith f.relativePath (skillDir ++ "/")
  let scriptFiles := (skillFiles.filter fun f =>
    jsStartsWith f.relativePath (skillDir ++ "/scripts/")).map fun f => f.name
  let referenceFiles := (skillFiles.filter fun f =>
    jsStartsWith f.relativePath (skillDir ++ "/references/")).map fun f => f.name
  let assetFiles := (skillFiles.filter fun f =>
    jsStartsWith f.relativePath (skillDir ++ "/assets/")).map fun f => f.name
  { skillFolderPath := skillDir
    hasScripts := scriptFiles.length > 0
    hasReferences := referenceFiles.length > 0
    hasAssets := assetFiles.length > 0
    scriptFiles := scriptFiles
    referenceFiles := referenceFiles
    assetFiles := assetFiles }

/-- JavaScript `line.startsWith('#')` on a character list. -/
def startsHash (l : List Char) : Bool :=
  ['#'].isPrefixOf l

/-- Embeds the description loop of `parseSkillContent`: headings flip the
`foundHeading` flag; after it is set, the first line with non-blank trim
that is not a heading yields its trimmed text, and the loop stops. An
exhausted scan yields the empty result. -/
def descLoop : List (List Char) → Bool → List Char
  | [], _ => []
  | l :: ls, foundHeading =>
    if startsHash l then descLoop ls true
    else if foundHeading && !(jsTrimList l).isEmpty && !startsHash l then
      jsTrimList l
    else descLoop ls foundHeading

/-- ECMAScript line terminators in the modelled ASCII fragment: the
regular-expression dot matches any character except these. Note that
carriage return is both a line terminator and whitespace. -/
def lineTerm (c : Char) : Bool :=
  c == '\n' || c == '\r'

/-- Whether the capture group `(.+)` can start at offset `k` after the
bullet marker: a character exists there and the dot can match it. -/
def dotStart (rest : List Char) (k : Nat) : Bool :=
  (rest[k]?).any fun c => !lineTerm c

/-- Backtracking of the greedy `\s+` after the marker: try the longest
whitespace run first and give back one character at a time, never
shrinking below one, until the capture's first character is matchable by
the dot; `none` when no split succeeds. -/
def backtrackWs (rest : List Char) : Nat → Option Nat
  | 0 => none
  | k + 1 => if dotStart rest (k + 1) then some (k + 1) else backtrackWs rest k

/-- Embeds `line.match(/^[\s]*[-*]\s+(.+)/)`: optional leading
whitespace, a `-` or `*` marker, then a nonempty whitespace run chosen
greedily (with backtracking) so that at least one character remains for
`(.+)`; since the dot does not match line terminators, the capture is
the maximal run of non-terminator characters from that position. -/
def bulletCaptureList (l : List Char) : Option (List Char) :=
  match l.dropWhile wsp with
  | [] => none
  | m :: rest =>
    if m == '-' || m == '*' then
      match backtrackWs rest ((rest.takeWhile wsp).length) with
      | some k => some ((rest.drop k).takeWhile fun c => !lineTerm c)
      | none => none
    else none

/-- Embeds `parseSkillContent`: derive the display name from the parent
path segment, the description from the first paragraph after a heading,
up to three capabilities from bullet lines, the folder structure, and the
source classification. -/
def parseSkillContent (content path : String) (fileTree : FileTree) :
    Skill :=
  let pathParts := splitChar '/' path.toList
  let skillDirName : List Char :=
    match pathParts.dropLast.getLast? with
    | some s => if s.isEmpty then "Unknown Skill".toList else s
    | none => "Unknown Skill".toList
  let lines := splitChar '\n' content.toList
  let rawDesc := descLoop lines false
  let capabilities :=
    (lines.filterMap bulletCaptureList).map fun c => String.mk (jsTrimList c)
  let struct := analyzeSkillStructure fileTree path
  let sp := determineSkillSource path
  { id := path
    name := String.mk (replaceChar '_' ' ' (replaceChar '-' ' ' skillDirName))
    path := path
    description :=
      if rawDesc.isEmpty then "No description available"
      else String.mk rawDesc
    content := content
    capabilities := capabilities.take 3
    skillFolderPath := struct.skillFolderPath
    hasScripts := struct.hasScripts
    hasReferences := struct.hasReferences
    hasAssets := struct.hasAssets
    scriptFiles := struct.scriptFiles
    referenceFiles := struct.referenceFiles
    assetFiles := struct.assetFiles
    source := sp.1
    priority := sp.2 }

/-- Outcome of one `loadSkills` pass: `skills = none` means the skills
state was not updated (the error path does not touch it). -/
structure LoadResult where
  skills : Option (List Skill)
  error : Option String
deriving DecidableEq, Repr

/-- Embeds the `loadSkills` pass of the richer variant. Inputs: the
optional file-tree slice data, whether a file-system adapter with
`readFile` is present, the optional repository path, the read function
(`none` models a rejected read), and the host-supplied global skills.
With no file tree, local discovery is skipped and only global skills are
set, with no error. Per-item read failures drop that item only. -/
def loadSkills (fileTreeData : Option FileTree) (hasFileSystem : Bool)
    (repoPath : Option String) (readFile : String → Option String)
    (globalSkills : List Skill) : LoadResult :=
  match fileTreeData with
  | none => { skills := some ([] ++ globalSkills), error := none }
  | some fileTree =>
    if !hasFileSystem then
      { skills := none, error := some "File system adapter not available" }
    else
      match repoPath with
      | none => { skills := none, error := some "Repository path not available" }
      | some rp =>
        let skillPaths := findSkillFiles fileTree
        let localSkills := skillPaths.filterMap fun skillPath =>
          (readFile (rp ++ "/" ++ skillPath)).map fun c =>
            parseSkillContent c skillPath fileTree
        { skills := some (localSkills ++ globalSkills), error := none }

/-- Category filter state of `SkillsListPanel`. -/
inductive SkillFilter where
  | all
  | project
  | global
deriving DecidableEq, Repr

/-- Embeds the search-query test of `filteredSkills` in
`SkillsListPanel.tsx`: case-insensitive containment in the name, the
description, any capability, or the path. -/
def skillMatchesQuery (skill : Skill) (query : String) : Bool :=
  jsIncludes (jsToLower skill.name) query ||
  jsIncludes (jsToLower skill.description) query ||
  skill.capabilities.any (fun cap => jsIncludes (jsToLower cap) query) ||
  jsIncludes (jsToLower skill.path) query

/-- Embeds the `filteredSkills` memo of `SkillsListPanel.tsx`: narrow by
source category, then by the trimmed, lowercased search query when the
query is not blank. -/
def filteredSkills (skills : List Skill) (skillFilter : SkillFilter)
    (searchQuery : String) : List Skill :=
  let filtered :=
    match skillFilter with
    | .all => skills
    | .project => skills.filter fun s =>
        s.source == .projectUniversal || s.source == .projectClaude ||
        s.source == .projectOther
    | .global => skills.filter fun s =>
        s.source == .globalUniversal || s.source == .globalClaude
  if !(jsTrim searchQuery).isEmpty then
    let query := jsTrim (jsToLower searchQuery)
    filtered.filter fun sk => skillMatchesQuery sk query
  else filtered

/-- Spec-phrased description extraction: drop lines up to and including
the first heading line, then the first subsequent line with non-blank
trimmed text that is not itself a heading gives the description; the
placeholder is substituted when no heading or no such line exists. -/
def specDescription (lines : List (List Char)) : String :=
  match lines.dropWhile (fun l => !startsHash l) with
  | [] => "No description available"
  | _ :: after =>
    match after.find? (fun l => !(jsTrimList l).isEmpty && !startsHash l) with
    | some l => String.mk (jsTrimList l)
    | none => "No description available"

/-- Spec-phrased bullet-line test: after optional leading whitespace and
a `-` or `*` marker, a nonempty whitespace run can be split off leaving
a character the regex dot can match; equivalently, among the characters
the mandatory whitespace run may leave to the capture (offsets 1 up to
the whitespace-run length), at least one is not a line terminator. -/
def specIsBullet (l : List Char) : Bool :=
  match l.dropWhile wsp with
  | m :: rest =>
    (m == '-' || m == '*') &&
    ((rest.drop 1).take ((rest.takeWhile wsp).length)).any fun c => !lineTerm c
  | [] => false

/-- Spec-phrased trailing text of a bullet line: the text after the
marker and its whitespace run, up to the first line terminator, trimmed
(an all-whitespace remainder trims to the empty string). -/
def specTrailing (l : List Char) : String :=
  match l.dropWhile wsp with
  | _ :: rest =>
    String.mk (jsTrimList ((rest.dropWhile wsp).takeWhile fun c => !lineTerm c))
  | [] => ""

/-- Spec-phrased name derivation: the second-to-last path segment (the
parent directory's name) with separators replaced by spaces, or the
fallback label when the path has fewer than two segments or an empty
parent segment. -/
def specParentName (path : String) : String :=
  let segs := splitChar '/' path.toList
  if h : 2 ≤ segs.length then
    let seg := segs.get ⟨segs.length - 2, by omega⟩
    if seg.isEmpty then "Unknown Skill"
    else String.mk (replaceChar '_' ' ' (replaceChar '-' ' ' seg))
  else "Unknown Skill"

theorem parse_description (c p : String) (t : FileTree) :
    (parseSkillContent c p t).description =
      (if (descLoop (splitChar '\n' c.toList) false).isEmpty then
        "No description available"
      else String.mk (descLoop (splitChar '\n' c.toList) false)) := rfl

theorem parse_capabilities (c p : String) (t : FileTree) :
    (parseSkillContent c p t).capabilities =
      (((splitChar '\n' c.toList).filterMap bulletCaptureList).map
        fun l => String.mk (jsTrimList l)).take 3 := rfl

theorem parse_id (c p : String) (t : FileTree) :
    (parseSkillContent c p t).id = p := rfl

theorem parse_source_priority (c p : String) (t : FileTree) :
    (parseSkillContent c p t).source = (determineSkillSource p).1 ∧
    (parseSkillContent c p t).priority = (determineSkillSource p).2 :=
  ⟨rfl, rfl⟩

theorem descLoop_true (ls : List (List Char)) :
    descLoop ls true =
      match ls.find? (fun l => !(jsTrimList l).isEmpty && !startsHash l) with
      | some l => jsTrimList l
      | none => [] := by
  induction ls with
  | nil => rfl
  | cons l ls ih =>
    by_cases h : startsHash l = true
    · simp [descLoop, h, List.find?_cons, ih]
    · by_cases h2 : (jsTrimList l).isEmpty = true
      · simp [descLoop, h, h2, List.find?_cons, ih]
      · simp [descLoop, h, h2, List.find?_cons]

theorem descLoop_false (ls : List (List Char)) :
    descLoop ls false =
      match ls.dropWhile (fun l => !startsHash l) with
      | [] => []
      | _ :: after => descLoop after true := by
  induction ls with
  | nil => rfl
  | cons l ls ih =>
    by_cases h : startsHash l = true
    · simp [descLoop, h, List.dropWhile_cons]
    · simp [descLoop, h, List.dropWhile_cons, ih]

theorem term_is_wsp (c : Char) (h : lineTerm c = true) : wsp c = true := by
  simp only [lineTerm, Bool.or_eq_true, beq_iff_eq] at h
  rcases h with h | h <;> subst h <;> rfl

theorem drop_length_takeWhile (p : Char → Bool) (l : List Char) :
    l.drop (l.takeWhile p).length = l.dropWhile p := by
  induction l with
  | nil => rfl
  | cons c cs ih =>
    by_cases hc : p c = true
    · simp [List.takeWhile_cons, List.dropWhile_cons, hc, ih]
    · simp [List.takeWhile_cons, List.dropWhile_cons, hc]

theorem getElem?_length_takeWhile (p : Char → Bool) (l : List Char)
    (c : Char) (h : l[(l.takeWhile p).length]? = some c) : p c = false := by
  induction l with
  | nil => simp at h
  | cons a as ih =>
    by_cases ha : p a = true
    · simp only [List.takeWhile_cons, ha, if_true, List.length_cons,
        List.getElem?_cons_succ] at h
      exact ih h
    · simp only [List.takeWhile_cons, ha, if_false, List.length_nil,
        List.getElem?_cons_zero, Option.some_inj, Bool.false_eq_true] at h
      subst h
      exact Bool.eq_false_iff.mpr ha

theorem getElem?_drop_one (l : List Char) (n : Nat) :
    (l.drop 1)[n]? = l[n + 1]? := by
  cases l <;> simp

theorem trim_allws (l : List Char) (h : ∀ c ∈ l, wsp c = true) :
    jsTrimList l = [] := by
  unfold jsTrimList
  have hdw : l.dropWhile wsp = [] := by
    rw [List.dropWhile_eq_nil_iff]; exact h
  rw [hdw]
  rfl

theorem takeWhile_length_all (p : Char → Bool) (l : List Char)
    (h : (l.takeWhile p).length = l.length) : ∀ c ∈ l, p c = true := by
  induction l with
  | nil => simp
  | cons a as ih =>
    by_cases ha : p a = true
    · rw [List.takeWhile_cons_of_pos ha, List.length_cons,
        List.length_cons] at h
      intro c hc
      rcases List.mem_cons.mp hc with rfl | hc
      · exact ha
      · exact ih (by omega) c hc
    · rw [List.takeWhile_cons_of_neg ha, List.length_nil,
        List.length_cons] at h
      omega

theorem backtrackWs_isSome (rest : List Char) (n : Nat) :
    (backtrackWs rest n).isSome =
      ((rest.drop 1).take n).any fun c => !lineTerm c := by
  induction n with
  | zero => rfl
  | succ n ih =>
    rw [show (rest.drop 1).take (n + 1) =
        (rest.drop 1).take n ++ ((rest.drop 1)[n]?).toList from List.take_succ,
      List.any_append, getElem?_drop_one]
    unfold backtrackWs
    by_cases hdot : dotStart rest (n + 1) = true
    · rw [if_pos hdot]
      unfold dotStart at hdot
      cases hg : rest[n + 1]? with
      | none => rw [hg, Option.any_none] at hdot; exact absurd hdot (by simp)
      | some c =>
        rw [hg, Option.any_some] at hdot
        simp [hg, hdot]
    · rw [if_neg hdot]
      have hdf : dotStart rest (n + 1) = false := Bool.eq_false_iff.mpr hdot
      unfold dotStart at hdf
      cases hg : rest[n + 1]? with
      | none => simp [hg, ih]
      | some c =>
        rw [hg, Option.any_some] at hdf
        simp [hg, ih, hdf]

theorem bullet_eq (l : List Char) :
    (bulletCaptureList l).map (fun c => String.mk (jsTrimList c)) =
      if specIsBullet l then some (specTrailing l) else none := by
  unfold bulletCaptureList specIsBullet specTrailing
  cases hd : l.dropWhile wsp with
  | nil => rfl
  | cons m rest =>
    dsimp only
    by_cases hm : (m == '-' || m == '*') = true
    · rw [if_pos hm, hm, Bool.true_and]
      have hbridge := backtrackWs_isSome rest ((rest.takeWhile wsp).length)
      cases hbt : backtrackWs rest ((rest.takeWhile wsp).length) with
      | none =>
        rw [hbt] at hbridge
        simp only [Option.isSome_none] at hbridge
        have hany : ((rest.drop 1).take
            ((rest.takeWhile wsp).length)).any (fun c => !lineTerm c) =
              false := hbridge.symm
        rw [hany]
        simp
      | some k =>
        rw [hbt] at hbridge
        simp only [Option.isSome_some] at hbridge
        have hany : ((rest.drop 1).take
            ((rest.takeWhile wsp).length)).any (fun c => !lineTerm c) =
              true := hbridge.symm
        have hk : jsTrimList ((rest.drop k).takeWhile fun c => !lineTerm c) =
            jsTrimList ((rest.dropWhile wsp).takeWhile fun c => !lineTerm c) := by
          by_cases hlt : (rest.takeWhile wsp).length < rest.length
          · have hdot : dotStart rest (rest.takeWhile wsp).length = true := by
              unfold dotStart
              cases hg : rest[(rest.takeWhile wsp).length]? with
              | none =>
                rw [List.getElem?_eq_none_iff] at hg
                omega
              | some c =>
                rw [Option.any_some]
                have hpc := getElem?_length_takeWhile wsp rest c hg
                show (!lineTerm c) = true
                cases hterm : lineTerm c
                · rfl
                · exact absurd (term_is_wsp c hterm) (by simp [hpc])
            have hkW : k = (rest.takeWhile wsp).length := by
              cases hWc : (rest.takeWhile wsp).length with
              | zero =>
                rw [hWc] at hbt
                exact absurd hbt (by simp [backtrackWs])
              | succ w =>
                rw [hWc] at hbt hdot
                unfold backtrackWs at hbt
                rw [if_pos hdot] at hbt
                exact (Option.some_inj.mp hbt).symm
            rw [hkW, drop_length_takeWhile]
          · have hWlen : (rest.takeWhile wsp).length = rest.length := by
              have hle := (List.takeWhile_sublist (l := rest) wsp).length_le
              omega
            have hall := takeWhile_length_all wsp rest hWlen
            have hdw : rest.dropWhile wsp = [] := by
              rw [List.dropWhile_eq_nil_iff]; exact hall
            rw [hdw]
            simp only [List.takeWhile_nil]
            apply trim_allws
            intro c hc
            have hc1 : c ∈ rest.drop k :=
              (List.takeWhile_sublist _).subset hc
            have hc2 : c ∈ rest := (List.drop_sublist _ _).subset hc1
            exact hall c hc2
        rw [if_pos hany]
        dsimp only
        rw [Option.map_some', hk]
    · have hmf : (m == '-' || m == '*') = false :=
        Bool.eq_false_iff.mpr hm
      simp [hmf]

theorem filterMap_bullet (lines : List (List Char)) :
    (lines.filterMap bulletCaptureList).map (fun l => String.mk (jsTrimList l)) =
      (lines.filter specIsBullet).map specTrailing := by
  induction lines with
  | nil => rfl
  | cons l ls ih =>
    have hb := bullet_eq l
    by_cases hs : specIsBullet l = true
    · rw [if_pos hs] at hb
      rcases Option.map_eq_some'.mp hb with ⟨cap, hcap, hf⟩
      rw [List.filterMap_cons, hcap, List.filter_cons]
      simp only [hs, if_true, List.map_cons, hf, ih]
    · rw [if_neg hs] at hb
      have hnone : bulletCaptureList l = none := Option.map_eq_none'.mp hb
      rw [List.filterMap_cons, hnone, List.filter_cons]
      simp only [hs, if_false, ih, Bool.false_eq_true]

/-- C3: for every document text, the parsed description is the trimmed
text of the first non-blank, non-heading line after the first line
beginning with `#`; with no heading, or no such line after it, the
description is the fixed placeholder "No description available". -/
theorem c3_description_extraction (c p : String) (t : FileTree) :
    (parseSkillContent c p t).description =
      specDescription (splitChar '\n' c.toList) := by
  rw [parse_description, descLoop_false]
  unfold specDescription
  cases hdw : (splitChar '\n' c.toList).dropWhile (fun l => !startsHash l) with
  | nil => rfl
  | cons hd after =>
    dsimp only
    rw [descLoop_true]
    cases hf : after.find? (fun l => !(jsTrimList l).isEmpty && !startsHash l) with
    | none => rfl
    | some l =>
      have hp := List.find?_some hf
      simp only [Bool.and_eq_true, Bool.not_eq_true'] at hp
      simp [hp.1]

/-- C4: the parsed capabilities are the trimmed trailing texts of the
first three bullet-pattern lines in document order, never more than
three; in particular bullets A, B, C, D parse to exactly A, B, C. -/
theorem c4_capabilities_first_three_bullets :
    (∀ (c p : String) (t : FileTree),
      (parseSkillContent c p t).capabilities =
        (((splitChar '\n' c.toList).filter specIsBullet).map specTrailing).take 3 ∧
      (parseSkillContent c p t).capabilities.length ≤ 3) ∧
    (parseSkillContent "# T\n\n- A\n- B\n- C\n- D" "s/SKILL.md"
      ⟨[]⟩).capabilities = ["A", "B", "C"] := by
  refine ⟨fun c p t => ?_, by decide⟩
  have heq : (parseSkillContent c p t).capabilities =
      (((splitChar '\n' c.toList).filter specIsBullet).map specTrailing).take 3 := by
    rw [parse_capabilities, filterMap_bullet]
  refine ⟨heq, ?_⟩
  rw [heq]
  simp [List.length_take]

/-- C5: source classification of a locally parsed item is determined by
path substring matching: `.agent/skills/` gives project-universal with
priority 1, otherwise `.claude/skills/` gives project-claude with
priority 3, and any other path gives project-other with priority 5. -/
theorem c5_source_classification (c p : String) (t : FileTree) :
    (jsIncludes p ".agent/skills/" = true →
      (parseSkillContent c p t).source = SkillSource.projectUniversal ∧
      (parseSkillContent c p t).priority = 1) ∧
    (jsIncludes p ".agent/skills/" = false →
      jsIncludes p ".claude/skills/" = true →
      (parseSkillContent c p t).source = SkillSource.projectClaude ∧
      (parseSkillContent c p t).priority = 3) ∧
    (jsIncludes p ".agent/skills/" = false →
      jsIncludes p ".claude/skills/" = false →
      (parseSkillContent c p t).source = SkillSource.projectOther ∧
      (parseSkillContent c p t).priority = 5) := by
  obtain ⟨hs, hp⟩ := parse_source_priority c p t
  refine ⟨fun h1 => ?_, fun h1 h2 => ?_, fun h1 h2 => ?_⟩ <;>
    rw [hs, hp] <;> simp [determineSkillSource, h1]
  · simp [h2]
  · simp [h2]

theorem c5_witness :
    ((parseSkillContent "x" ".agent/skills/a/SKILL.md" ⟨[]⟩).source =
        SkillSource.projectUniversal ∧
      (parseSkillContent "x" ".agent/skills/a/SKILL.md" ⟨[]⟩).priority = 1) ∧
    ((parseSkillContent "x" ".claude/skills/a/SKILL.md" ⟨[]⟩).source =
        SkillSource.projectClaude ∧
      (parseSkillContent "x" ".claude/skills/a/SKILL.md" ⟨[]⟩).priority = 3) ∧
    ((parseSkillContent "x" "tools/a/SKILL.md" ⟨[]⟩).source =
        SkillSource.projectOther ∧
      (parseSkillContent "x" "tools/a/SKILL.md" ⟨[]⟩).priority = 5) :=
  ⟨(c5_source_classification "x" ".agent/skills/a/SKILL.md" ⟨[]⟩).1 (by decide),
   (c5_source_classification "x" ".claude/skills/a/SKILL.md" ⟨[]⟩).2.1
     (by decide) (by decide),
   (c5_source_classification "x" "tools/a/SKILL.md" ⟨[]⟩).2.2
     (by decide) (by decide)⟩

/-- C2: when reading path X fails and reading path Y succeeds, the pass
yields exactly the item parsed from Y, drops X, and sets no pass-level
error. -/
theorem c2_read_failure_drops_only_failed_item (tree : FileTree)
    (rp : String) (rf : String → Option String) (X Y cY : String)
    (hfind : findSkillFiles tree = [X, Y])
    (hX : rf (rp ++ "/" ++ X) = none)
    (hY : rf (rp ++ "/" ++ Y) = some cY) :
    loadSkills (some tree) true (some rp) rf [] =
      { skills := some [parseSkillContent cY Y tree], error := none } := by
  simp [loadSkills, hfind, List.filterMap_cons, hX, hY]

def c2Tree : FileTree :=
  ⟨[⟨"SKILL.md", "a/SKILL.md"⟩, ⟨"SKILL.md", "b/SKILL.md"⟩]⟩

def c2Read : String → Option String :=
  fun s => if s == "/r/b/SKILL.md" then some "# B\nBeta" else none

theorem c2_witness :
    loadSkills (some c2Tree) true (some "/r") c2Read [] =
      { skills := some [parseSkillContent "# B\nBeta" "b/SKILL.md" c2Tree],
        error := none } :=
  c2_read_failure_drops_only_failed_item c2Tree "/r" c2Read
    "a/SKILL.md" "b/SKILL.md" "# B\nBeta" (by decide) (by decide) (by decide)

/-- C6: a pass whose local discovery yields items A then B, merged with
global items C then D, produces exactly the list A, B, C, D: local items
in discovery order followed by global items in supplied order, with no
de-duplication and no re-sorting. -/
theorem c6_merge_order (tree : FileTree) (rp : String)
    (rf : String → Option String) (pA pB cA cB : String) (C D : Skill)
    (hfind : findSkillFiles tree = [pA, pB])
    (hA : rf (rp ++ "/" ++ pA) = some cA)
    (hB : rf (rp ++ "/" ++ pB) = some cB) :
    loadSkills (some tree) true (some rp) rf [C, D] =
      { skills := some [parseSkillContent cA pA tree,
          parseSkillContent cB pB tree, C, D],
        error := none } := by
  simp [loadSkills, hfind, List.filterMap_cons, hA, hB]

def c6Read : String → Option String :=
  fun s =>
    if s == "/r/a/SKILL.md" then some "# A\nAlpha"
    else if s == "/r/b/SKILL.md" then some "# B\nBeta"
    else none

def globalSkillC : Skill :=
  { id := "global-c", name := "c", path := "~/.agent/skills/c/SKILL.md"
    description := "c", content := "", capabilities := []
    skillFolderPath := "~/.agent/skills/c", hasScripts := false
    hasReferences := false, hasAssets := false, scriptFiles := []
    referenceFiles := [], assetFiles := []
    source := .globalUniversal, priority := 2 }

def globalSkillD : Skill :=
  { id := "global-d", name := "d", path := "~/.claude/skills/d/SKILL.md"
    description := "d", content := "", capabilities := []
    skillFolderPath := "~/.claude/skills/d", hasScripts := false
    hasReferences := false, hasAssets := false, scriptFiles := []
    referenceFiles := [], assetFiles := []
    source := .globalClaude, priority := 4 }

theorem c6_witness :
    loadSkills (some c2Tree) true (some "/r") c6Read
        [globalSkillC, globalSkillD] =
      { skills := some [parseSkillContent "# A\nAlpha" "a/SKILL.md" c2Tree,
          parseSkillContent "# B\nBeta" "b/SKILL.md" c2Tree,
          globalSkillC, globalSkillD],
        error := none } :=
  c6_merge_order c2Tree "/r" c6Read "a/SKILL.md" "b/SKILL.md"
    "# A\nAlpha" "# B\nBeta" globalSkillC globalSkillD
    (by decide) (by decide) (by decide)

/-- C1 counterexample: with no file-tree snapshot (and no global items)
the pass stores an empty list and leaves the error state unset, so no
user-visible explanatory error distinguishes this case from zero items
found after filtering. -/
theorem c1_counterexample :
    (loadSkills none true (some "/repo") (fun _ => none) []).skills =
        some [] ∧
    (loadSkills none true (some "/repo") (fun _ => none) []).error = none :=
  ⟨rfl, rfl⟩

/-- C1 amended: when no file-tree snapshot is available the pass skips
local discovery, stores exactly the host-supplied global items (an empty
local item list), and sets no error state. -/
theorem c1_no_snapshot_empty_no_error (hasFileSystem : Bool)
    (repoPath : Option String) (rf : String → Option String)
    (globalSkills : List Skill) :
    loadSkills none hasFileSystem repoPath rf globalSkills =
      { skills := some globalSkills, error := none } := rfl

theorem parse_name (c p : String) (t : FileTree) :
    (parseSkillContent c p t).name =
      String.mk (replaceChar '_' ' ' (replaceChar '-' ' '
        (match (splitChar '/' p.toList).dropLast.getLast? with
          | some s => if s.isEmpty then "Unknown Skill".toList else s
          | none => "Unknown Skill".toList))) := rfl

theorem dropLast_getLast? {α : Type _} (L : List α) :
    L.dropLast.getLast? =
      if 2 ≤ L.length then L.get? (L.length - 2) else none := by
  induction L with
  | nil => rfl
  | cons a L ih =>
    cases L with
    | nil => rfl
    | cons b M =>
      cases M with
      | nil => rfl
      | cons c N =>
        have hstep := ih
        simp only [List.dropLast_cons₂] at hstep ⊢
        rw [List.getLast?_cons_cons, hstep]
        simp only [List.length_cons]
        rw [if_pos (by omega), if_pos (by omega)]
        have h1 : N.length + 1 + 1 - 2 = N.length := by omega
        have h2 : N.length + 1 + 1 + 1 - 2 = N.length + 1 := by omega
        rw [h1, h2]
        rfl

/-- C7 counterexample: for a SKILL.md directly inside a directory named
"skills", the parsed name is the parent directory name "skills", not the
file's own name with its extension stripped. -/
theorem c7_counterexample :
    (parseSkillContent "# Title\nDesc" "skills/SKILL.md" ⟨[]⟩).name =
        "skills" ∧
    (parseSkillContent "# Title\nDesc" "skills/SKILL.md" ⟨[]⟩).name ≠
        "SKILL" := by
  decide

/-- C7 amended: the display name is always the parent directory's path
segment (the second-to-last segment), with hyphens and underscores
replaced by spaces; when the path has fewer than two segments or the
parent segment is empty, the name is "Unknown Skill". -/
theorem c7_name_is_parent_segment (c p : String) (t : FileTree) :
    (parseSkillContent c p t).name = specParentName p := by
  rw [parse_name, dropLast_getLast?]
  unfold specParentName
  by_cases h : 2 ≤ (splitChar '/' p.toList).length
  · rw [if_pos h, dif_pos h,
      List.get?_eq_get (show (splitChar '/' p.toList).length - 2 <
        (splitChar '/' p.toList).length by omega)]
    dsimp only
    by_cases he :
        ((splitChar '/' p.toList).get
          ⟨(splitChar '/' p.toList).length - 2, by omega⟩).isEmpty = true
    · rw [if_pos he, if_pos he]
      decide
    · rw [if_neg he, if_neg he]
  · rw [if_neg h, dif_neg h]
    decide

def c8Skill : Skill :=
  { id := "tools/audit/SKILL.md", name := "audit"
    path := "tools/audit/SKILL.md", description := "checks dependencies"
    content := "", capabilities := ["Check for insecure dependencies"]
    skillFolderPath := "tools/audit", hasScripts := false
    hasReferences := false, hasAssets := false, scriptFiles := []
    referenceFiles := [], assetFiles := []
    source := .projectOther, priority := 5 }

/-- C8 counterexample: "security" is not a substring of the lowercased
capability "check for insecure dependencies", so an item whose only
matching field is that capability is filtered out by the query
"security". -/
theorem c8_counterexample :
    "Check for insecure dependencies" ∈ c8Skill.capabilities ∧
    filteredSkills [c8Skill] SkillFilter.all "security" = [] := by
  decide

/-- C8 amended: the query "insecure" (a true substring of that
capability) includes every item whose capabilities contain "Check for
insecure dependencies"; the query "security" only matches such an item
through some other field. -/
theorem c8_insecure_query_matches_capability (skills : List Skill)
    (skill : Skill) (hmem : skill ∈ skills)
    (hcap : "Check for insecure dependencies" ∈ skill.capabilities) :
    skill ∈ filteredSkills skills SkillFilter.all "insecure" := by
  have hq : (!(jsTrim "insecure").isEmpty) = true := by decide
  simp only [filteredSkills, hq, if_true]
  have hquery : jsTrim (jsToLower "insecure") = "insecure" := by decide
  rw [hquery]
  refine List.mem_filter.mpr ⟨hmem, ?_⟩
  have hc : jsIncludes (jsToLower "Check for insecure dependencies")
      "insecure" = true := by decide
  have hany : skill.capabilities.any
      (fun cap => jsIncludes (jsToLower cap) "insecure") = true :=
    List.any_eq_true.mpr ⟨_, hcap, hc⟩
  simp [skillMatchesQuery, hany]

theorem c8_witness :
    c8Skill ∈ filteredSkills [c8Skill] SkillFilter.all "insecure" :=
  c8_insecure_query_matches_capability [c8Skill] c8Skill
    (by decide) (by decide)

def c9Tree : FileTree := ⟨[⟨"SKILL.md", "a/SKILL.md"⟩]⟩

def c9Read : String → Option String :=
  fun s => if s == "/r/a/SKILL.md" then some "# A\nAlpha" else none

def c9Global : Skill :=
  { id := "a/SKILL.md", name := "a", path := "a/SKILL.md"
    description := "a", content := "", capabilities := []
    skillFolderPath := "a", hasScripts := false
    hasReferences := false, hasAssets := false, scriptFiles := []
    referenceFiles := [], assetFiles := []
    source := .globalUniversal, priority := 2 }

/-- C9 counterexample: merging is verbatim, so a host-supplied global
item whose id equals a locally discovered item's path produces an
aggregated list with a duplicated id. -/
theorem c9_counterexample :
    ¬ (((loadSkills (some c9Tree) true (some "/r") c9Read
        [c9Global]).skills.getD []).map Skill.id).Nodup := by
  decide

theorem filterMap_parse_ids (paths : List String)
    (g : String → Option String) (tree : FileTree) :
    ((paths.filterMap fun sp =>
        (g sp).map fun c => parseSkillContent c sp tree).map Skill.id) =
      paths.filter fun sp => (g sp).isSome := by
  induction paths with
  | nil => rfl
  | cons q qs ih =>
    rw [List.filterMap_cons, List.filter_cons]
    cases hm : g q with
    | none => simp [hm, ih]
    | some cc => simp [hm, ih, parse_id]

/-- C9 amended: the aggregated ids are pairwise distinct provided the
candidate SKILL.md paths in the snapshot are pairwise distinct, the
host-supplied global ids are pairwise distinct, and no global id equals
any candidate path; the code itself performs no de-duplication. -/
theorem c9_ids_nodup (tree : FileTree) (rp : String)
    (rf : String → Option String) (gs : List Skill)
    (hpaths : (findSkillFiles tree).Nodup)
    (hgids : (gs.map Skill.id).Nodup)
    (hdisj : ∀ g ∈ gs, g.id ∉ findSkillFiles tree) :
    (((loadSkills (some tree) true (some rp) rf gs).skills.getD
        []).map Skill.id).Nodup := by
  have hres : loadSkills (some tree) true (some rp) rf gs =
      { skills := some ((findSkillFiles tree).filterMap (fun sp =>
          (rf (rp ++ "/" ++ sp)).map fun c =>
            parseSkillContent c sp tree) ++ gs),
        error := none } := rfl
  rw [hres]
  simp only [Option.getD_some]
  rw [List.map_append, filterMap_parse_ids, List.nodup_append]
  refine ⟨hpaths.filter _, hgids, ?_⟩
  intro a ha hb
  have ha' : a ∈ findSkillFiles tree := List.mem_of_mem_filter ha
  rcases List.mem_map.mp hb with ⟨g, hg, rfl⟩
  exact hdisj g hg ha'

theorem c9_witness :
    (((loadSkills (some c9Tree) true (some "/r") c9Read
        [globalSkillC]).skills.getD []).map Skill.id).Nodup :=
  c9_ids_nodup c9Tree "/r" c9Read [globalSkillC]
    (by decide) (by decide) (by decide)

theorem splitChar_no_sep (sep : Char) (cs : List Char) (h : sep ∉ cs) :
    splitChar sep cs = [cs] := by
  induction cs with
  | nil => rfl
  | cons c cs ih =>
    have hc : (c == sep) = false := by
      simp only [beq_eq_false_iff_ne, ne_eq]
      rintro rfl
      exact h (List.mem_cons_self _ _)
    have hrest : sep ∉ cs := fun hm => h (List.mem_cons_of_mem _ hm)
    simp [splitChar, hc, ih hrest]

theorem skillDirList_no_slash (cs : List Char) (h : '/' ∉ cs) :
    skillDirList cs = [] := by
  unfold skillDirList
  have hdrop : cs.reverse.dropWhile (fun c => !(c == '/')) = [] := by
    rw [List.dropWhile_eq_nil_iff]
    intro x hx
    have hxm : x ∈ cs := List.mem_reverse.mp hx
    simp only [Bool.not_eq_true', beq_eq_false_iff_ne, ne_eq]
    rintro rfl
    exact h hxm
  rw [hdrop]

theorem parse_structure_fields (c p : String) (t : FileTree) :
    (parseSkillContent c p t).skillFolderPath =
        (analyzeSkillStructure t p).skillFolderPath ∧
    (parseSkillContent c p t).hasScripts =
        (analyzeSkillStructure t p).hasScripts ∧
    (parseSkillContent c p t).hasReferences =
        (analyzeSkillStructure t p).hasReferences ∧
    (parseSkillContent c p t).hasAssets =
        (analyzeSkillStructure t p).hasAssets ∧
    (parseSkillContent c p t).scriptFiles =
        (analyzeSkillStructure t p).scriptFiles ∧
    (parseSkillContent c p t).referenceFiles =
        (analyzeSkillStructure t p).referenceFiles ∧
    (parseSkillContent c p t).assetFiles =
        (analyzeSkillStructure t p).assetFiles :=
  ⟨rfl, rfl, rfl, rfl, rfl, rfl, rfl⟩

/-- C10: parsing a SKILL.md whose path has no `/` separator, against a
snapshot in which no relative path starts with `/`, yields the fallback
name "Unknown Skill", an empty folder path, empty script, reference and
asset file lists, and all structural flags false. -/
theorem c10_root_level_skill_defaults (content path : String)
    (tree : FileTree) (hpath : '/' ∉ path.toList)
    (htree : ∀ f ∈ tree.allFiles, jsStartsWith f.relativePath "/" = false) :
    (parseSkillContent content path tree).name = "Unknown Skill" ∧
    (parseSkillContent content path tree).skillFolderPath = "" ∧
    (parseSkillContent content path tree).scriptFiles = [] ∧
    (parseSkillContent content path tree).referenceFiles = [] ∧
    (parseSkillContent content path tree).assetFiles = [] ∧
    (parseSkillContent content path tree).hasScripts = false ∧
    (parseSkillContent content path tree).hasReferences = false ∧
    (parseSkillContent content path tree).hasAssets = false := by
  have hstruct : analyzeSkillStructure tree path =
      { skillFolderPath := "", hasScripts := false, hasReferences := false
        hasAssets := false, scriptFiles := [], referenceFiles := []
        assetFiles := [] } := by
    unfold analyzeSkillStructure
    rw [skillDirList_no_slash path.toList hpath]
    dsimp only
    have hfil : tree.allFiles.filter (fun f =>
        jsStartsWith f.relativePath (String.mk ([] : List Char) ++ "/")) =
          [] := by
      rw [List.filter_eq_nil_iff]
      intro f hf
      have : (String.mk ([] : List Char) ++ "/") = "/" := rfl
      rw [this]
      simp [htree f hf]
    rw [hfil]
    rfl
  have hfields := parse_structure_fields content path tree
  refine ⟨?_, ?_, ?_, ?_, ?_, ?_, ?_, ?_⟩
  · rw [parse_name, splitChar_no_sep '/' path.toList hpath]
    have hnone : ([path.toList] : List (List Char)).dropLast.getLast? =
        none := rfl
    rw [hnone]
    decide
  · rw [hfields.1, hstruct]
  · rw [hfields.2.2.2.2.1, hstruct]
  · rw [hfields.2.2.2.2.2.1, hstruct]
  · rw [hfields.2.2.2.2.2.2, hstruct]
  · rw [hfields.2.1, hstruct]
  · rw [hfields.2.2.1, hstruct]
  · rw [hfields.2.2.2.1, hstruct]

theorem c10_witness :
    (parseSkillContent "# Root\nTop" "SKILL.md"
        ⟨[⟨"readme.md", "readme.md"⟩]⟩).name = "Unknown Skill" ∧
    (parseSkillContent "# Root\nTop" "SKILL.md"
        ⟨[⟨"readme.md", "readme.md"⟩]⟩).skillFolderPath = "" ∧
    (parseSkillContent "# Root\nTop" "SKILL.md"
        ⟨[⟨"readme.md", "readme.md"⟩]⟩).scriptFiles = [] ∧
    (parseSkillContent "# Root\nTop" "SKILL.md"
        ⟨[⟨"readme.md", "readme.md"⟩]⟩).referenceFiles = [] ∧
    (parseSkillContent "# Root\nTop" "SKILL.md"
        ⟨[⟨"readme.md", "readme.md"⟩]⟩).assetFiles = [] ∧
    (parseSkillContent "# Root\nTop" "SKILL.md"
        ⟨[⟨"readme.md", "readme.md"⟩]⟩).hasScripts = false ∧
    (parseSkillContent "# Root\nTop" "SKILL.md"
        ⟨[⟨"readme.md", "readme.md"⟩]⟩).hasReferences = false ∧
    (parseSkillContent "# Root\nTop" "SKILL.md"
        ⟨[⟨"readme.md", "readme.md"⟩]⟩).hasAssets = false :=
  c10_root_level_skill_defaults "# Root\nTop" "SKILL.md"
    ⟨[⟨"readme.md", "readme.md"⟩]⟩ (by decide) (by decide)
